import Mathlib

/-!
Bloxroute: a queue-driven ordered key-value store.

A shallow embedding of `server/ServerBR.go` (command decoder, command handlers,
receive loop) and of the message encoder of `client/ClientBR.go`, followed by the
properties of these functions.

Modelling conventions
* A Go `string` is a list of Unicode code points (`Str`).  The two separators the
  decoder splits on, `,` and `:`, are ASCII, so splitting the code-point list is
  splitting the UTF-8 byte string.
* The Go map `data` is a function `Str → Option Str`; `none` is an absent key.
* Console output, log output, the mutex operations and the request sent to the
  queue are recorded, in program order, in a list of `Event`s.
-/

namespace Bloxroute

/-- Go strings, as lists of code points. -/
abbrev Str := List Char

/-! ## Library functions used by the source -/

/-- Go `unicode.IsSpace`: the Latin-1 spaces and the characters with the Unicode
White_Space property. -/
def isSpace (c : Char) : Bool :=
  c.toNat = 0x09 || c.toNat = 0x0A || c.toNat = 0x0B || c.toNat = 0x0C || c.toNat = 0x0D ||
  c.toNat = 0x20 || c.toNat = 0x85 || c.toNat = 0xA0 || c.toNat = 0x1680 ||
  (0x2000 ≤ c.toNat && c.toNat ≤ 0x200A) || c.toNat = 0x2028 || c.toNat = 0x2029 ||
  c.toNat = 0x202F || c.toNat = 0x205F || c.toNat = 0x3000

/-- Go `strings.TrimSpace`: drop the leading and the trailing white space. -/
def TrimSpace (s : Str) : Str :=
  ((s.dropWhile isSpace).reverse.dropWhile isSpace).reverse

/-- First piece and remaining pieces of `strings.Split` for a one-character separator. -/
def splitPieces (sep : Char) : Str → Str × List Str
  | [] => ([], [])
  | c :: cs =>
    if c = sep then ([], (splitPieces sep cs).1 :: (splitPieces sep cs).2)
    else (c :: (splitPieces sep cs).1, (splitPieces sep cs).2)

/-- Go `strings.Split(s, sep)` for a one-character separator: the pieces of `s`
between the occurrences of `sep`; the empty string gives one empty piece. -/
def Split (s : Str) (sep : Char) : List Str :=
  (splitPieces sep s).1 :: (splitPieces sep s).2

/-- Go `fmt.Println`: the operands separated by one blank, then a newline. -/
def Println (operands : List Str) : Str :=
  [' '].intercalate operands ++ ['\n']

/-! ## The command decoder (`parseMessageBody`) -/

/-- The loop of `parseMessageBody` over the comma-separated parts; the triple is
the current value of the named results `action`, `key`, `value`. -/
def parseParts : List Str → Str × Str × Str → Except String (Str × Str × Str)
  | [], acc => .ok acc
  | part :: parts, (action, key, value) =>
    match Split part ':' with
    | [p0, p1] =>
      let field := TrimSpace p0
      let sentValue := TrimSpace p1
      if field = "Action".toList then parseParts parts (sentValue, key, value)
      else if field = "Key".toList then parseParts parts (action, sentValue, value)
      else if field = "Value".toList then parseParts parts (action, key, sentValue)
      else parseParts parts (action, key, value)
    | _ => .error "invalid message body format"

/-- The function `parseMessageBody` of `ServerBR.go`. -/
def parseMessageBody (body : Str) : Except String (Str × Str × Str) :=
  match parseParts (Split body ',') ([], [], []) with
  | .error e => .error e
  | .ok (action, key, value) =>
    if action = [] then .error "missing required values"
    else .ok (action, key, value)

/-! ## The message encoder of the client (`SendMsg`) -/

/-- The message body built in `SendMsg` of `ClientBR.go`:
`fmt.Sprintf("Action: %s, Key: %s, Value: %s", action, key, value)`. -/
def messageBody (action key value : Str) : Str :=
  "Action: ".toList ++ action ++ ", Key: ".toList ++ key ++ ", Value: ".toList ++ value

/-- One alphanumeric character, the class `[a-zA-Z0-9]` of `isValidInput`. -/
def isAlnum (c : Char) : Bool :=
  ('a'.toNat ≤ c.toNat && c.toNat ≤ 'z'.toNat) ||
  ('A'.toNat ≤ c.toNat && c.toNat ≤ 'Z'.toNat) ||
  ('0'.toNat ≤ c.toNat && c.toNat ≤ '9'.toNat)

/-- The function `isValidInput` of `ClientBR.go`: the input matches `^[a-zA-Z0-9]*$`. -/
def isValidInput (input : Str) : Bool :=
  input.all isAlnum

/-! ## The store and the command handlers (`processMessage`) -/

/-- The two variables of `main` shared by all calls of `processMessage`. -/
structure Store where
  /-- The map `data`; `none` is an absent key. -/
  data : Str → Option Str
  /-- The slice `order`. -/
  order : List Str

/-- The store at the start of `main`: `data = {}`, `order = []`. -/
def emptyStore : Store := ⟨fun _ => none, []⟩

/-- A queue message: the two fields of `sqs.Message` that the server reads. -/
structure Message where
  Body : Str
  ReceiptHandle : Str
  deriving DecidableEq

/-- What one call does to the outside, in program order. -/
inductive Event where
  /-- A line written by `fmt.Println`. -/
  | stdout (text : Str)
  /-- A text written by `log.Printf` (without the time stamp of the logger). -/
  | logged (text : Str)
  /-- The call `mutex.Lock()`. -/
  | lock
  /-- The call `mutex.Unlock()`. -/
  | unlock
  /-- A `DeleteMessage` request sent to the queue for a receipt handle. -/
  | deleteRequest (receiptHandle : Str)
  deriving DecidableEq

/-- The function `deleteMessage` of `ServerBR.go`; `deleteErr` is the error, if
any, with which the queue answers the request. -/
def deleteMessage (message : Message) (deleteErr : Option Str) : List Event :=
  Event.deleteRequest message.ReceiptHandle ::
    match deleteErr with
    | none => []
    | some e => [Event.stdout (Println ["Failed to delete message from SQS:".toList, e])]

/-- The loop of the `DeleteItem` case that removes the first occurrence of `key`
from `order`. -/
def removeFirst (key : Str) : List Str → List Str
  | [] => []
  | k :: ks => if k = key then ks else k :: removeFirst key ks

/-- The `case "AddItem"` of `processMessage`. -/
def caseAddItem (key value : Str) (s : Store) : Store × List Event :=
  match s.data key with
  | some oldValue =>
    (⟨Function.update s.data key (some value), s.order⟩,
      [Event.stdout (Println ["AddItem - Key:".toList, key, "Value:".toList, value]),
       Event.logged ("AddItem - Key: ".toList ++ key ++
         " already exists. Overwriting value. Old value: ".toList ++ oldValue ++
         ", New value: ".toList ++ value ++ ['\n'])])
  | none =>
    (⟨Function.update s.data key (some value), s.order ++ [key]⟩,
      [Event.stdout (Println ["AddItem - Key:".toList, key, "Value:".toList, value]),
       Event.logged ("AddItem - Key: ".toList ++ key ++ ", Value: ".toList ++ value ++ ['\n'])])

/-- The `case "DeleteItem"` of `processMessage`. -/
def caseDeleteItem (key : Str) (s : Store) : Store × List Event :=
  match s.data key with
  | none =>
    (s, [Event.stdout (Println ["DeleteItem - Key:".toList, key]),
         Event.logged ("DeleteItem - Key does not exist: ".toList ++ key ++ ['\n'])])
  | some _ =>
    (⟨Function.update s.data key none, removeFirst key s.order⟩,
      [Event.stdout (Println ["DeleteItem - Key:".toList, key]),
       Event.logged ("DeleteItem - Key: ".toList ++ key ++ ['\n'])])

/-- The `case "GetItem"` of `processMessage`. -/
def caseGetItem (key : Str) (s : Store) : Store × List Event :=
  match s.data key with
  | none =>
    (s, [Event.stdout (Println ["GetItem - Key:".toList, key]),
         Event.logged ("GetItem - Key does not exist: ".toList ++ key ++ ['\n'])])
  | some value =>
    (s, [Event.stdout (Println ["GetItem - Key:".toList, key]),
         Event.logged ("GetItem - Key: ".toList ++ key ++ ", Value: ".toList ++ value ++ ['\n'])])

/-- The pairs `(key, data[key])` that the loop of the `GetAllItems` case visits,
in the order of the loop; an absent key reads as the empty string, as in a Go map. -/
def enumerated (s : Store) : List (Str × Str) :=
  s.order.map (fun key => (key, (s.data key).getD []))

/-- The log text of one pair in the `GetAllItems` case. -/
def itemLine (p : Str × Str) : Str :=
  "Key: ".toList ++ p.1 ++ ", Value: ".toList ++ p.2 ++ [' ']

/-- The `case "GetAllItems"` of `processMessage`. -/
def caseGetAllItems (s : Store) : Store × List Event :=
  (s, [Event.stdout (Println ["GetAllItems".toList]), Event.logged "GetAllItems ".toList] ++
        (enumerated s).map (fun p => Event.logged (itemLine p)) ++ [Event.logged ['\n']])

/-- The `switch action` of `processMessage`, between `mutex.Lock()` and
`mutex.Unlock()`. -/
def switchAction (action key value : Str) (s : Store) : Store × List Event :=
  if action = "AddItem".toList then caseAddItem key value s
  else if action = "DeleteItem".toList then caseDeleteItem key s
  else if action = "GetItem".toList then caseGetItem key s
  else if action = "GetAllItems".toList then caseGetAllItems s
  else (s, [Event.stdout (Println ["Unknown action:".toList, action])])

/-- The function `processMessage` of `ServerBR.go`, run alone: the store after
the call and the events of the call. -/
def processMessage (message : Message) (deleteErr : Option Str) (s : Store) :
    Store × List Event :=
  match parseMessageBody message.Body with
  | .error err =>
    (s, Event.stdout (Println ["Failed to parse message body:".toList, err.toList]) ::
          deleteMessage message deleteErr)
  | .ok (action, key, value) =>
    ((switchAction action key value s).1,
      [Event.lock] ++ (switchAction action key value s).2 ++ [Event.unlock] ++
        deleteMessage message deleteErr)

/-- Calls of `processMessage` one after another, each on the store the previous
one left; every call comes with the answer of the queue to its delete request. -/
def processAll (calls : List (Message × Option Str)) (s : Store) : Store :=
  calls.foldl (fun st c => (processMessage c.1 c.2 st).1) s

/-! ## The receive loop of `main` -/

/-- The answer of the queue to one `ReceiveMessage` call. -/
inductive ReceiveOutcome where
  | batch (messages : List Message)
  | failure (err : Str)

/-- The function `GetMessages` of `ServerBR.go` on one answer of the queue. -/
def GetMessages (o : ReceiveOutcome) : Except Str (List Message) × List Event :=
  match o with
  | .failure err =>
    (.error err, [Event.stdout (Println ["Failed to receive messages from SQS:".toList, err])])
  | .batch messages => (.ok messages, [])

/-- What the receiving goroutine of `main` has done. -/
structure Received where
  /-- The messages sent on `messageChannel`, in order. -/
  forwarded : List Message
  /-- The number of calls of `GetMessages`. -/
  calls : Nat
  /-- Whether the goroutine has returned. -/
  returned : Bool
  /-- The lines printed by `GetMessages` and by the goroutine, in program order. -/
  output : List Event

/-- The goroutine `for { GetMessages ...; for ... { messageChannel <- message } }`
of `main`, run on the successive answers of the queue.  On an error it prints
`Got an error receiving messages:` and the error, and returns. -/
def receiveLoop : List ReceiveOutcome → Received
  | [] => ⟨[], 0, false, []⟩
  | o :: rest =>
    match GetMessages o with
    | (.error err, printed) =>
      ⟨[], 1, true,
        printed ++ [Event.stdout (Println ["Got an error receiving messages:".toList]),
          Event.stdout (Println [err])]⟩
    | (.ok messages, printed) =>
      ⟨messages ++ (receiveLoop rest).forwarded, (receiveLoop rest).calls + 1,
        (receiveLoop rest).returned, printed ++ (receiveLoop rest).output⟩

/-! ## Definitions used to state the properties -/

/-- The trimmed texts of the fields called `name` among the comma-separated
parts of a body, in the order of the parts. -/
def fieldTexts (name : Str) (parts : List Str) : List Str :=
  parts.filterMap (fun part =>
    match Split part ':' with
    | [p0, p1] => if TrimSpace p0 = name then some (TrimSpace p1) else none
    | _ => none)

/-- The text of the last field called `name`, or `dflt` when there is none. -/
def lastField (name : Str) (parts : List Str) (dflt : Str) : Str :=
  ((fieldTexts name parts).getLast?).getD dflt

/-- The store invariant: `order` has no duplicate key, and a key occurs in
`order` exactly when it is a key of `data`. -/
def StoreInv (s : Store) : Prop :=
  s.order.Nodup ∧ ∀ k, k ∈ s.order ↔ (s.data k).isSome

/-- The two commands that change the store. -/
inductive Command where
  | AddItem (key value : Str)
  | DeleteItem (key : Str)

/-- The command a message body carries when it decodes to the action `AddItem`
or `DeleteItem`. -/
def decodeCommand (body : Str) : Option Command :=
  match parseMessageBody body with
  | .ok (action, key, value) =>
    if action = "AddItem".toList then some (Command.AddItem key value)
    else if action = "DeleteItem".toList then some (Command.DeleteItem key)
    else none
  | .error _ => none

/-- One command on the reference association list: `AddItem k v` replaces the
value of `k` in place if `k` is present and otherwise appends `(k, v)` at
the end; `DeleteItem k` removes the entry of `k` if present. -/
def refApply (l : List (Str × Str)) : Command → List (Str × Str)
  | Command.AddItem k v =>
    if l.any (fun p => p.1 = k) then l.map (fun p => if p.1 = k then (k, v) else p)
    else l ++ [(k, v)]
  | Command.DeleteItem k => l.filter (fun p => p.1 ≠ k)

/-- The reference association list after a sequence of commands, from the empty list. -/
def reference (cmds : List Command) : List (Str × Str) :=
  cmds.foldl refApply []

/-- One command run on the store by its case of `processMessage`. -/
def runCommand (s : Store) : Command → Store
  | Command.AddItem k v => (caseAddItem k v s).1
  | Command.DeleteItem k => (caseDeleteItem k s).1

/-- The store holds the association list `l`: `order` is the list of the keys of
`l`, no key occurs twice, and `data` maps a key to a value exactly when the pair
is in `l`. -/
def Represents (s : Store) (l : List (Str × Str)) : Prop :=
  s.order = l.map Prod.fst ∧ (l.map Prod.fst).Nodup ∧
    ∀ k v, s.data k = some v ↔ (k, v) ∈ l

/-- The key a command is about. -/
def Command.key : Command → Str
  | Command.AddItem k _ => k
  | Command.DeleteItem k => k

/-- The last command of a sequence that is about the key `k`, if any. -/
def lastTouch (k : Str) (cmds : List Command) : Option Command :=
  cmds.foldl (fun found c => if c.key = k then some c else found) none

/-- The segments `<name>: <text>` joined by `,`. -/
def joinSegments (segs : List (Str × Str)) : Str :=
  [','].intercalate (segs.map (fun p => p.1 ++ ": ".toList ++ p.2))

/-- The trimmed text of the first segment whose trimmed name is `name`, or the
empty string when there is no such segment. -/
def segmentText (name : Str) (segs : List (Str × Str)) : Str :=
  match segs.find? (fun p => TrimSpace p.1 = name) with
  | some p => TrimSpace p.2
  | none => []

/-- The messages of all successful batches among the answers of the queue. -/
def allBatches : List ReceiveOutcome → List Message
  | [] => []
  | ReceiveOutcome.batch messages :: rest => messages ++ allBatches rest
  | ReceiveOutcome.failure _ :: rest => allBatches rest

/-- The messages of the successful batches that come before the first failed
receive call. -/
def batchesBeforeFailure : List ReceiveOutcome → List Message
  | [] => []
  | ReceiveOutcome.batch messages :: rest => messages ++ batchesBeforeFailure rest
  | ReceiveOutcome.failure _ :: _ => []

/-- The number of answers up to and including the first failure. -/
def answersUntilFailure : List ReceiveOutcome → Nat
  | [] => 0
  | ReceiveOutcome.batch _ :: rest => answersUntilFailure rest + 1
  | ReceiveOutcome.failure _ :: _ => 1

/-- The lines printed for the first failed receive call, if there is one: the
line of `GetMessages`, then the two lines of the goroutine of `main`. -/
def failureOutput : List ReceiveOutcome → List Event
  | [] => []
  | ReceiveOutcome.batch _ :: rest => failureOutput rest
  | ReceiveOutcome.failure err :: _ =>
    [Event.stdout ("Failed to receive messages from SQS: ".toList ++ err ++ ['\n']),
     Event.stdout "Got an error receiving messages:\n".toList,
     Event.stdout (err ++ ['\n'])]

/-- The delete requests among the events of a call. -/
def deleteRequests (events : List Event) : List Str :=
  events.filterMap (fun e => match e with
    | Event.deleteRequest h => some h
    | _ => none)

/-! ## Facts about the library functions -/

theorem splitPieces_of_not_mem (sep : Char) (s : Str) (h : sep ∉ s) :
    splitPieces sep s = (s, []) := by
  induction s with
  | nil => rfl
  | cons c cs ih =>
    have hc : c ≠ sep := fun e => h (by simp [e])
    have hcs : sep ∉ cs := fun m => h (List.mem_cons_of_mem _ m)
    simp [splitPieces, hc, ih hcs]

theorem Split_of_not_mem (sep : Char) (s : Str) (h : sep ∉ s) : Split s sep = [s] := by
  simp [Split, splitPieces_of_not_mem sep s h]

theorem Split_append_sep (sep : Char) (a b : Str) (h : sep ∉ a) :
    Split (a ++ sep :: b) sep = a :: Split b sep := by
  induction a with
  | nil => simp [Split, splitPieces]
  | cons c cs ih =>
    have hc : c ≠ sep := fun e => h (by simp [e])
    have hcs : sep ∉ cs := fun m => h (List.mem_cons_of_mem _ m)
    have := ih hcs
    simp only [Split, List.cons.injEq] at this
    simp [Split, splitPieces, hc, this.1, this.2]

theorem Split_intercalate (sep : Char) (x : Str) (xs : List Str)
    (h : ∀ y ∈ x :: xs, sep ∉ y) : Split ([sep].intercalate (x :: xs)) sep = x :: xs := by
  induction xs generalizing x with
  | nil => simpa [List.intercalate] using Split_of_not_mem sep x (h x (by simp))
  | cons y ys ih =>
    have hx : sep ∉ x := h x (by simp)
    have hy : ∀ z ∈ y :: ys, sep ∉ z := fun z hz => h z (List.mem_cons_of_mem _ hz)
    have e : [sep].intercalate (x :: y :: ys) = x ++ sep :: [sep].intercalate (y :: ys) := by
      simp [List.intercalate, List.intersperse]
    rw [e, Split_append_sep sep _ _ hx, ih y hy]

theorem dropWhile_isSpace_of_no_space (s : Str) (h : ∀ c ∈ s, isSpace c = false) :
    s.dropWhile isSpace = s := by
  cases s with
  | nil => rfl
  | cons c cs => simp [List.dropWhile, h c (by simp)]

theorem TrimSpace_of_no_space (s : Str) (h : ∀ c ∈ s, isSpace c = false) :
    TrimSpace s = s := by
  unfold TrimSpace
  rw [dropWhile_isSpace_of_no_space s h,
    dropWhile_isSpace_of_no_space s.reverse (fun c hc => h c (List.mem_reverse.mp hc))]
  simp

theorem TrimSpace_blank_cons (s : Str) : TrimSpace (' ' :: s) = TrimSpace s := by
  have : isSpace ' ' = true := by decide
  simp [TrimSpace, List.dropWhile, this]

theorem isSpace_of_isAlnum (c : Char) (h : isAlnum c = true) : isSpace c = false := by
  simp only [isAlnum, Bool.or_eq_true, Bool.and_eq_true, decide_eq_true_eq] at h
  simp only [isSpace, Bool.or_eq_false_iff, Bool.and_eq_false_iff, decide_eq_false_iff_not]
  have ha : 'a'.toNat = 97 := by decide
  have hz : 'z'.toNat = 122 := by decide
  have hA : 'A'.toNat = 65 := by decide
  have hZ : 'Z'.toNat = 90 := by decide
  have h0 : '0'.toNat = 48 := by decide
  have h9 : '9'.toNat = 57 := by decide
  rw [ha, hz, hA, hZ, h0, h9] at h
  omega

/-! ## Facts about the decoder -/

theorem getLast?_cons_getD (x d : Str) (l : List Str) :
    ((x :: l).getLast?).getD d = (l.getLast?).getD x := by
  cases l with
  | nil => rfl
  | cons y ys => simp [List.getLast?_cons_cons, List.getLast?_eq_getLast]

theorem lastField_cons_two (name part p0 p1 : Str) (parts : List Str) (dflt : Str)
    (h : Split part ':' = [p0, p1]) :
    lastField name (part :: parts) dflt =
      lastField name parts (if TrimSpace p0 = name then TrimSpace p1 else dflt) := by
  unfold lastField fieldTexts
  by_cases hn : TrimSpace p0 = name
  · simp [List.filterMap_cons, h, hn, getLast?_cons_getD]
  · simp [List.filterMap_cons, h, hn]

theorem parseParts_ok (parts : List Str) (action key value : Str)
    (h : ∀ part ∈ parts, (Split part ':').length = 2) :
    parseParts parts (action, key, value) =
      .ok (lastField "Action".toList parts action, lastField "Key".toList parts key,
        lastField "Value".toList parts value) := by
  induction parts generalizing action key value with
  | nil => rfl
  | cons part parts ih =>
    have hp := h part (by simp)
    have hps : ∀ q ∈ parts, (Split q ':').length = 2 :=
      fun q hq => h q (List.mem_cons_of_mem _ hq)
    rcases hsp : Split part ':' with _ | ⟨p0, _ | ⟨p1, _ | ⟨p2, t⟩⟩⟩
    · simp [hsp] at hp
    · simp [hsp] at hp
    · rw [lastField_cons_two _ _ _ _ _ _ hsp, lastField_cons_two _ _ _ _ _ _ hsp,
        lastField_cons_two _ _ _ _ _ _ hsp]
      have hAK : "Action".toList ≠ "Key".toList := by decide
      have hAV : "Action".toList ≠ "Value".toList := by decide
      have hKV : "Key".toList ≠ "Value".toList := by decide
      simp only [parseParts, hsp]
      by_cases h1 : TrimSpace p0 = "Action".toList
      · simp only [h1, if_true, if_neg hAK, if_neg hAV]
        exact ih _ _ _ hps
      · by_cases h2 : TrimSpace p0 = "Key".toList
        · simp only [h2, if_true, if_neg hAK.symm, if_neg hKV]
          exact ih _ _ _ hps
        · by_cases h3 : TrimSpace p0 = "Value".toList
          · simp only [h3, if_true, if_neg hAV.symm, if_neg hKV.symm]
            exact ih _ _ _ hps
          · simp only [if_neg h1, if_neg h2, if_neg h3]
            exact ih _ _ _ hps
    · simp [hsp] at hp

theorem parseParts_error (parts : List Str) (acc : Str × Str × Str)
    (h : ∃ part ∈ parts, (Split part ':').length ≠ 2) :
    parseParts parts acc = .error "invalid message body format" := by
  induction parts generalizing acc with
  | nil => simp at h
  | cons part parts ih =>
    obtain ⟨action, key, value⟩ := acc
    rcases hsp : Split part ':' with _ | ⟨p0, _ | ⟨p1, _ | ⟨p2, t⟩⟩⟩
    · simp [parseParts, hsp]
    · simp [parseParts, hsp]
    · have hrest : ∃ q ∈ parts, (Split q ':').length ≠ 2 := by
        obtain ⟨q, hq, hlen⟩ := h
        rcases List.mem_cons.mp hq with e | hq
        · subst e; simp [hsp] at hlen
        · exact ⟨q, hq, hlen⟩
      simp only [parseParts, hsp]
      split_ifs <;> exact ih _ hrest
    · simp [parseParts, hsp]

/-- The decoder in closed form: the malformed-field error when some part does
not split in two, else the missing-values error when the last `Action` text is
empty (or there is none), else the last text of each of the three fields. -/
theorem parseMessageBody_eq (body : Str) :
    parseMessageBody body =
      if ∃ part ∈ Split body ',', (Split part ':').length ≠ 2 then
        .error "invalid message body format"
      else if lastField "Action".toList (Split body ',') [] = [] then
        .error "missing required values"
      else .ok (lastField "Action".toList (Split body ',') [],
        lastField "Key".toList (Split body ',') [], lastField "Value".toList (Split body ',') []) := by
  by_cases h : ∃ part ∈ Split body ',', (Split part ':').length ≠ 2
  · simp only [if_pos h, parseMessageBody, parseParts_error _ _ h]
  · have h2 : ∀ part ∈ Split body ',', (Split part ':').length = 2 := by
      intro part hp
      by_contra hne
      exact h ⟨part, hp, hne⟩
    simp only [if_neg h, parseMessageBody, parseParts_ok _ _ _ _ h2]

/-! ## Facts about the handlers -/

theorem switchAction_AddItem (key value : Str) (s : Store) :
    switchAction "AddItem".toList key value s = caseAddItem key value s := by
  simp [switchAction]

theorem switchAction_DeleteItem (key value : Str) (s : Store) :
    switchAction "DeleteItem".toList key value s = caseDeleteItem key s := by
  have h : "DeleteItem".toList ≠ "AddItem".toList := by decide
  simp [switchAction, h]

theorem switchAction_other (action key value : Str) (s : Store)
    (h1 : action ≠ "AddItem".toList) (h2 : action ≠ "DeleteItem".toList) :
    (switchAction action key value s).1 = s := by
  unfold switchAction
  rw [if_neg h1, if_neg h2]
  split_ifs
  · unfold caseGetItem; split <;> rfl
  · rfl
  · rfl

theorem removeFirst_eq_erase (key : Str) (l : List Str) : removeFirst key l = l.erase key := by
  induction l with
  | nil => rfl
  | cons k ks ih =>
    by_cases h : k = key
    · simp [removeFirst, h]
    · simp [removeFirst, h, List.erase_cons, ih]

theorem caseAddItem_data (key value : Str) (s : Store) :
    (caseAddItem key value s).1.data = Function.update s.data key (some value) := by
  unfold caseAddItem; split <;> rfl

theorem caseAddItem_order (key value : Str) (s : Store) :
    (caseAddItem key value s).1.order =
      if (s.data key).isSome then s.order else s.order ++ [key] := by
  unfold caseAddItem; split <;> simp [*]

theorem caseDeleteItem_absent (key : Str) (s : Store) (h : s.data key = none) :
    caseDeleteItem key s =
      (s, [Event.stdout (Println ["DeleteItem - Key:".toList, key]),
           Event.logged ("DeleteItem - Key does not exist: ".toList ++ key ++ ['\n'])]) := by
  unfold caseDeleteItem; rw [h]

theorem caseDeleteItem_data_self (key : Str) (s : Store) :
    (caseDeleteItem key s).1.data key = none := by
  unfold caseDeleteItem
  split
  · assumption
  · simp

theorem caseAddItem_inv (key value : Str) (s : Store) (h : StoreInv s) :
    StoreInv (caseAddItem key value s).1 := by
  obtain ⟨hnd, hmem⟩ := h
  unfold StoreInv
  rw [caseAddItem_data, caseAddItem_order]
  cases hk : s.data key with
  | some old =>
    refine ⟨by simpa using hnd, fun k => ?_⟩
    by_cases e : k = key
    · subst e; simp [(hmem k).2 (by simp [hk])]
    · simp [Function.update_noteq e, hmem k]
  | none =>
    have hnot : key ∉ s.order := fun m => by simpa [hk] using (hmem key).1 m
    refine ⟨?_, fun k => ?_⟩
    · simpa [List.nodup_append, hnd] using hnot
    · by_cases e : k = key
      · subst e; simp
      · simp [Function.update_noteq e, hmem k, e]

theorem caseDeleteItem_inv (key : Str) (s : Store) (h : StoreInv s) :
    StoreInv (caseDeleteItem key s).1 := by
  obtain ⟨hnd, hmem⟩ := h
  unfold caseDeleteItem
  split
  · exact ⟨hnd, hmem⟩
  · refine ⟨?_, fun k => ?_⟩
    · simpa [removeFirst_eq_erase] using hnd.erase key
    · by_cases e : k = key
      · subst e; simp [removeFirst_eq_erase, hnd.mem_erase_iff]
      · simp [removeFirst_eq_erase, hnd.mem_erase_iff, Function.update_noteq e, hmem k, e]

theorem switchAction_inv (action key value : Str) (s : Store) (h : StoreInv s) :
    StoreInv (switchAction action key value s).1 := by
  by_cases h1 : action = "AddItem".toList
  · rw [h1, switchAction_AddItem]; exact caseAddItem_inv key value s h
  · by_cases h2 : action = "DeleteItem".toList
    · rw [h2, switchAction_DeleteItem]; exact caseDeleteItem_inv key s h
    · rw [switchAction_other action key value s h1 h2]; exact h

theorem deleteRequests_append (a b : List Event) :
    deleteRequests (a ++ b) = deleteRequests a ++ deleteRequests b := by
  simp [deleteRequests, List.filterMap_append]

theorem deleteRequests_deleteMessage (message : Message) (deleteErr : Option Str) :
    deleteRequests (deleteMessage message deleteErr) = [message.ReceiptHandle] := by
  cases deleteErr <;> rfl

theorem deleteRequests_switchAction (action key value : Str) (s : Store) :
    deleteRequests (switchAction action key value s).2 = [] := by
  unfold switchAction
  split_ifs
  · unfold caseAddItem; split <;> rfl
  · unfold caseDeleteItem; split <;> rfl
  · unfold caseGetItem; split <;> rfl
  · simp [caseGetAllItems, deleteRequests, List.filterMap_append, List.filterMap_map]
  · rfl

/-! ## The store against the reference association list -/

theorem represents_empty : Represents emptyStore [] := by
  simp [Represents, emptyStore]

theorem represents_enumerated (s : Store) (l : List (Str × Str)) (h : Represents s l) :
    enumerated s = l := by
  obtain ⟨ho, -, hd⟩ := h
  unfold enumerated
  rw [ho, List.map_map]
  conv_rhs => rw [← List.map_id l]
  apply List.map_congr_left
  intro p hp
  have : s.data p.1 = some p.2 := (hd p.1 p.2).2 hp
  simp [this]

theorem represents_add (s : Store) (l : List (Str × Str)) (k v : Str) (h : Represents s l) :
    Represents (caseAddItem k v s).1 (refApply l (Command.AddItem k v)) := by
  obtain ⟨ho, hnd, hd⟩ := h
  unfold Represents
  rw [caseAddItem_data, caseAddItem_order]
  cases hk : s.data k with
  | some old =>
    have hmem : (k, old) ∈ l := (hd k old).1 hk
    have hany : l.any (fun p => decide (p.1 = k)) = true :=
      List.any_eq_true.mpr ⟨(k, old), hmem, by simp⟩
    have hkeys : (l.map (fun p => if p.1 = k then (k, v) else p)).map Prod.fst =
        l.map Prod.fst := by
      rw [List.map_map]
      apply List.map_congr_left
      intro p _
      by_cases e : p.1 = k <;> simp [e]
    simp only [refApply, hany, if_true, hkeys, Option.isSome_some]
    refine ⟨ho, hnd, fun k2 v2 => ?_⟩
    by_cases e : k2 = k
    · subst e
      rw [Function.update_same, List.mem_map]
      constructor
      · intro hv
        have hv2 : v = v2 := by simpa using hv
        exact ⟨(k2, old), hmem, by simp [hv2]⟩
      · rintro ⟨p, hp, hfp⟩
        by_cases e2 : p.1 = k2
        · rw [if_pos e2] at hfp
          simpa using hfp
        · rw [if_neg e2] at hfp
          exact absurd (by rw [hfp]) e2
    · rw [Function.update_noteq e, hd, List.mem_map]
      constructor
      · intro hp
        exact ⟨(k2, v2), hp, by simp [e]⟩
      · rintro ⟨p, hp, hfp⟩
        by_cases e2 : p.1 = k
        · rw [if_pos e2] at hfp
          exact absurd (congrArg Prod.fst hfp).symm e
        · rw [if_neg e2] at hfp
          exact hfp ▸ hp
  | none =>
    have hnot : ∀ p ∈ l, p.1 ≠ k := by
      intro p hp e
      have := (hd p.1 p.2).2 hp
      rw [e, hk] at this
      exact Option.noConfusion this
    have hany : l.any (fun p => decide (p.1 = k)) = false := by
      rw [List.any_eq_false]
      intro p hp
      simpa using hnot p hp
    have hkn : k ∉ l.map Prod.fst := by
      intro hm
      obtain ⟨p, hp, e⟩ := List.mem_map.mp hm
      exact hnot p hp e
    simp only [refApply, hany]
    refine ⟨by simp [ho], ?_, fun k2 v2 => ?_⟩
    · simpa [List.nodup_append, hnd] using hkn
    · by_cases e : k2 = k
      · subst e
        rw [Function.update_same]
        constructor
        · intro hv
          have hv2 : v = v2 := by simpa using hv
          simp [hv2]
        · intro hm
          rcases List.mem_append.mp hm with hm | hm
          · exact absurd rfl (hnot _ hm)
          · simp at hm; simp [hm]
      · rw [Function.update_noteq e, hd]
        simp [e]

theorem removeFirst_keys (k : Str) (l : List (Str × Str)) (hnd : (l.map Prod.fst).Nodup) :
    removeFirst k (l.map Prod.fst) = (l.filter (fun p => decide (p.1 ≠ k))).map Prod.fst := by
  induction l with
  | nil => rfl
  | cons p ps ih =>
    rw [List.map_cons, List.nodup_cons] at hnd
    by_cases e : p.1 = k
    · have hall : ∀ q ∈ ps, decide (q.1 ≠ k) = true := by
        intro q hq
        have : q.1 ≠ k := fun eq => hnd.1 (e ▸ eq ▸ List.mem_map_of_mem Prod.fst hq)
        simpa using this
      have hf : List.filter (fun q => decide (q.1 ≠ k)) (p :: ps) = ps := by
        rw [List.filter_cons_of_neg (by simp [e]), List.filter_eq_self.mpr hall]
      rw [hf]
      simp [removeFirst, e]
    · have hf : List.filter (fun q => decide (q.1 ≠ k)) (p :: ps) =
          p :: List.filter (fun q => decide (q.1 ≠ k)) ps :=
        List.filter_cons_of_pos (by simp [e])
      rw [hf]
      simp only [List.map_cons, removeFirst, if_neg e]
      rw [ih hnd.2]

theorem represents_delete (s : Store) (l : List (Str × Str)) (k : Str) (h : Represents s l) :
    Represents (caseDeleteItem k s).1 (refApply l (Command.DeleteItem k)) := by
  obtain ⟨ho, hnd, hd⟩ := h
  unfold caseDeleteItem
  simp only [refApply]
  split
  · rename_i hk
    have hall : ∀ p ∈ l, decide (p.1 ≠ k) = true := by
      intro p hp
      have h1 : p.1 ≠ k := by
        intro e
        have := (hd p.1 p.2).2 hp
        rw [e, hk] at this
        exact Option.noConfusion this
      simpa using h1
    rw [List.filter_eq_self.mpr hall]
    exact ⟨ho, hnd, hd⟩
  · refine ⟨?_, ?_, fun k2 v2 => ?_⟩
    · show removeFirst k s.order = _
      rw [ho, removeFirst_keys k l hnd]
    · exact hnd.sublist ((List.filter_sublist l).map Prod.fst)
    · show Function.update s.data k none k2 = some v2 ↔ _
      by_cases e : k2 = k
      · subst e; simp
      · rw [Function.update_noteq e, hd]; simp [e]

theorem represents_runCommand (s : Store) (l : List (Str × Str)) (c : Command)
    (h : Represents s l) : Represents (runCommand s c) (refApply l c) := by
  cases c with
  | AddItem k v => exact represents_add s l k v h
  | DeleteItem k => exact represents_delete s l k h

theorem processMessage_of_decodeCommand (message : Message) (deleteErr : Option Str)
    (s : Store) (c : Command) (h : decodeCommand message.Body = some c) :
    (processMessage message deleteErr s).1 = runCommand s c := by
  unfold decodeCommand at h
  unfold processMessage
  split at h
  · rename_i action key value hp
    simp only [hp]
    split_ifs at h with h1 h2
    · cases h; rw [h1, switchAction_AddItem]; rfl
    · cases h; rw [h2, switchAction_DeleteItem]; rfl
  · cases h

theorem represents_processAll (calls : List (Message × Option Str))
    (h : ∀ c ∈ calls, (decodeCommand c.1.Body).isSome = true)
    (s : Store) (l : List (Str × Str)) (hr : Represents s l) :
    Represents (processAll calls s)
      ((calls.filterMap (fun c => decodeCommand c.1.Body)).foldl refApply l) := by
  induction calls generalizing s l with
  | nil => exact hr
  | cons c cs ih =>
    have hc := h c (by simp)
    obtain ⟨cmd, hcmd⟩ := Option.isSome_iff_exists.mp hc
    have hcs : ∀ d ∈ cs, (decodeCommand d.1.Body).isSome = true :=
      fun d hd => h d (List.mem_cons_of_mem _ hd)
    simp only [processAll, List.foldl_cons, List.filterMap_cons, hcmd]
    rw [processMessage_of_decodeCommand c.1 c.2 s cmd hcmd]
    exact ih hcs _ _ (represents_runCommand s l cmd hr)

theorem mem_refApply_add (l : List (Str × Str)) (k v k2 v2 : Str) :
    (k2, v2) ∈ refApply l (Command.AddItem k v) ↔
      (k2 = k ∧ v2 = v) ∨ (k2 ≠ k ∧ (k2, v2) ∈ l) := by
  simp only [refApply]
  split
  · rename_i hany
    obtain ⟨q, hq, hqk⟩ := List.any_eq_true.mp hany
    have hqk2 : q.1 = k := by simpa using hqk
    rw [List.mem_map]
    constructor
    · rintro ⟨p, hp, hfp⟩
      by_cases e : p.1 = k
      · rw [if_pos e] at hfp
        left
        simpa [eq_comm] using hfp
      · rw [if_neg e] at hfp
        right
        subst hfp
        exact ⟨e, hp⟩
    · rintro (⟨e1, e2⟩ | ⟨e, hm⟩)
      · exact ⟨q, hq, by simp [hqk2, e1, e2]⟩
      · exact ⟨(k2, v2), hm, by simp [e]⟩
  · rename_i hany
    have hnot : ∀ p ∈ l, p.1 ≠ k := by
      intro p hp e
      exact hany (List.any_eq_true.mpr ⟨p, hp, by simp [e]⟩)
    rw [List.mem_append]
    constructor
    · rintro (hm | hm)
      · exact Or.inr ⟨hnot _ hm, hm⟩
      · left; simpa using hm
    · rintro (⟨e1, e2⟩ | ⟨_, hm⟩)
      · right; simp [e1, e2]
      · exact Or.inl hm

theorem mem_refApply_delete (l : List (Str × Str)) (k k2 v2 : Str) :
    (k2, v2) ∈ refApply l (Command.DeleteItem k) ↔ k2 ≠ k ∧ (k2, v2) ∈ l := by
  simp [refApply, and_comm]

theorem mem_reference_iff (cmds : List Command) (k v : Str) :
    (k, v) ∈ reference cmds ↔ lastTouch k cmds = some (Command.AddItem k v) := by
  induction cmds using List.reverseRecOn with
  | nil => simp [reference, lastTouch]
  | append_singleton cs c ih =>
    have hr : reference (cs ++ [c]) = refApply (reference cs) c := by
      simp [reference, List.foldl_append]
    have hl : lastTouch k (cs ++ [c]) = if c.key = k then some c else lastTouch k cs := by
      simp [lastTouch, List.foldl_append]
    rw [hr, hl]
    cases c with
    | AddItem k1 v1 =>
      rw [mem_refApply_add]
      by_cases e : k1 = k
      · subst e
        simp [Command.key, eq_comm]
      · have e2 : k ≠ k1 := fun x => e x.symm
        simp [Command.key, e, e2, ih]
    | DeleteItem k1 =>
      rw [mem_refApply_delete]
      by_cases e : k1 = k
      · subst e
        simp [Command.key]
      · have e2 : k ≠ k1 := fun x => e x.symm
        simp [Command.key, e, e2, ih]

/-! ## Properties of the store handlers -/

/-- C1: for every sequence of messages that decode to `AddItem` or `DeleteItem`
commands, processed one after another by `processMessage` from the empty store,
the pairs `(key, data[key])` that the `GetAllItems` case enumerates along `order`
are the reference association list of the commands (`AddItem k v` replaces the
value of `k` in place or appends `(k, v)`, `DeleteItem k` removes the entry of
`k`), and the `GetAllItems` case logs one line for each of these pairs in that
order.  The list has each key once, and it holds `(k, v)` exactly when the last
command about `k` is `AddItem k v`. -/
theorem enumerated_eq_reference (calls : List (Message × Option Str))
    (h : ∀ c ∈ calls, (decodeCommand c.1.Body).isSome = true) :
    enumerated (processAll calls emptyStore) =
      reference (calls.filterMap (fun c => decodeCommand c.1.Body)) ∧
    (∀ key value : Str,
      (switchAction "GetAllItems".toList key value (processAll calls emptyStore)).2 =
        [Event.stdout (Println ["GetAllItems".toList]), Event.logged "GetAllItems ".toList] ++
          (reference (calls.filterMap (fun c => decodeCommand c.1.Body))).map
            (fun p => Event.logged (itemLine p)) ++ [Event.logged ['\n']]) ∧
    ((reference (calls.filterMap (fun c => decodeCommand c.1.Body))).map Prod.fst).Nodup ∧
    ∀ k v, (k, v) ∈ reference (calls.filterMap (fun c => decodeCommand c.1.Body)) ↔
      lastTouch k (calls.filterMap (fun c => decodeCommand c.1.Body)) =
        some (Command.AddItem k v) := by
  have hr := represents_processAll calls h emptyStore [] represents_empty
  have he := represents_enumerated _ _ hr
  refine ⟨he, ?_, hr.2.1, fun k v => mem_reference_iff _ k v⟩
  intro key value
  have h1 : "GetAllItems".toList ≠ "AddItem".toList := by decide
  have h2 : "GetAllItems".toList ≠ "DeleteItem".toList := by decide
  have h3 : "GetAllItems".toList ≠ "GetItem".toList := by decide
  simp only [switchAction, if_neg h1, if_neg h2, if_neg h3, if_true, caseGetAllItems, he]
  rfl

/-- The end-to-end scenario: `AddItem k1 v1`, `AddItem k2 v2` enumerate `k1:v1`
before `k2:v2`; after `DeleteItem k1` only `k2:v2` is enumerated. -/
theorem enumerated_eq_reference_witness :
    enumerated (processAll
      [(⟨"Action: AddItem, Key: k1, Value: v1".toList, "r1".toList⟩, none),
       (⟨"Action: AddItem, Key: k2, Value: v2".toList, "r2".toList⟩, none)] emptyStore) =
      [("k1".toList, "v1".toList), ("k2".toList, "v2".toList)] ∧
    enumerated (processAll
      [(⟨"Action: AddItem, Key: k1, Value: v1".toList, "r1".toList⟩, none),
       (⟨"Action: AddItem, Key: k2, Value: v2".toList, "r2".toList⟩, none),
       (⟨"Action: DeleteItem, Key: k1, Value: ".toList, "r3".toList⟩, none)] emptyStore) =
      [("k2".toList, "v2".toList)] :=
  ⟨(enumerated_eq_reference _ (by decide)).1.trans rfl,
   (enumerated_eq_reference _ (by decide)).1.trans rfl⟩



/-- C2: the store invariant (no duplicate key in `order`, and a key is in `order`
exactly when it is a key of `data`) holds for the empty store, and every call of
`processMessage`, whatever the message body, the action, the key and the value,
keeps it: if it holds before the call it holds after it. -/
theorem storeInv_processMessage :
    StoreInv emptyStore ∧
    ∀ (message : Message) (deleteErr : Option Str) (s : Store),
      StoreInv s → StoreInv (processMessage message deleteErr s).1 := by
  refine ⟨⟨List.nodup_nil, fun k => by simp [emptyStore]⟩, ?_⟩
  intro message deleteErr s h
  unfold processMessage
  split
  · exact h
  · exact switchAction_inv _ _ _ s h

/-- The invariant after `AddItem k1 v1` and then `DeleteItem k1` on the empty store. -/
theorem storeInv_processMessage_witness :
    StoreInv emptyStore ∧
    StoreInv (processMessage ⟨"Action: DeleteItem, Key: k1, Value: ".toList, "r2".toList⟩ none
      (processMessage ⟨"Action: AddItem, Key: k1, Value: v1".toList, "r1".toList⟩ none
        emptyStore).1).1 :=
  ⟨storeInv_processMessage.1,
    storeInv_processMessage.2 _ _ _
      (storeInv_processMessage.2 _ _ _ storeInv_processMessage.1)⟩

/-- C4: one call of `processMessage` sends exactly one delete request, for the
receipt handle of its message.  When the body does not decode, the call prints
the failure and runs `deleteMessage`; when it decodes, the events are the lock,
the events of the handler (none of them a delete request, whatever the action),
the unlock, and then `deleteMessage`. -/
theorem processMessage_one_delete (message : Message) (deleteErr : Option Str) (s : Store) :
    deleteRequests (processMessage message deleteErr s).2 = [message.ReceiptHandle] ∧
    (∀ err, parseMessageBody message.Body = .error err →
      (processMessage message deleteErr s).2 =
        Event.stdout (Println ["Failed to parse message body:".toList, err.toList]) ::
          deleteMessage message deleteErr) ∧
    (∀ action key value, parseMessageBody message.Body = .ok (action, key, value) →
      (processMessage message deleteErr s).2 =
        [Event.lock] ++ (switchAction action key value s).2 ++ [Event.unlock] ++
          deleteMessage message deleteErr ∧
      deleteRequests (switchAction action key value s).2 = []) ∧
    (∃ rest, deleteMessage message deleteErr =
      Event.deleteRequest message.ReceiptHandle :: rest ∧ deleteRequests rest = []) := by
  refine ⟨?_, ?_, ?_, ?_⟩
  · unfold processMessage
    split
    · show deleteRequests ([Event.stdout _] ++ deleteMessage message deleteErr) = _
      rw [deleteRequests_append, deleteRequests_deleteMessage]; rfl
    · rw [deleteRequests_append, deleteRequests_append, deleteRequests_append,
        deleteRequests_switchAction, deleteRequests_deleteMessage]; rfl
  · intro err h
    simp only [processMessage, h]
  · intro action key value h
    refine ⟨?_, deleteRequests_switchAction _ _ _ _⟩
    simp only [processMessage, h]
  · cases deleteErr with
    | none => exact ⟨[], rfl, rfl⟩
    | some e => exact ⟨_, rfl, rfl⟩

/-- The body `Key: abc` does not decode, and the call sends one delete request. -/
theorem processMessage_one_delete_witness :
    parseMessageBody "Key: abc".toList = .error "missing required values" ∧
    (processMessage ⟨"Key: abc".toList, "r1".toList⟩ none emptyStore).2 =
      [Event.stdout "Failed to parse message body: missing required values\n".toList,
       Event.deleteRequest "r1".toList] :=
  ⟨rfl, ((processMessage_one_delete ⟨"Key: abc".toList, "r1".toList⟩ none emptyStore).2.1
    "missing required values" rfl).trans rfl⟩

/-- C7: `AddItem` is idempotent on the store.  For every store, key and value,
the `AddItem` case applied twice with the same key and value leaves the store
that one application leaves; the second application keeps `order` and writes
the same value at the key. -/
theorem addItem_idempotent (s : Store) (key value : Str) :
    (switchAction "AddItem".toList key value
        (switchAction "AddItem".toList key value s).1).1 =
      (switchAction "AddItem".toList key value s).1 ∧
    (switchAction "AddItem".toList key value
        (switchAction "AddItem".toList key value s).1).1.order =
      (switchAction "AddItem".toList key value s).1.order ∧
    (switchAction "AddItem".toList key value
        (switchAction "AddItem".toList key value s).1).1.data =
      Function.update (switchAction "AddItem".toList key value s).1.data key (some value) := by
  simp only [switchAction_AddItem]
  have hd : (caseAddItem key value (caseAddItem key value s).1).1.data =
      (caseAddItem key value s).1.data := by
    rw [caseAddItem_data, caseAddItem_data, Function.update_idem]
  have ho : (caseAddItem key value (caseAddItem key value s).1).1.order =
      (caseAddItem key value s).1.order := by
    rw [caseAddItem_order, caseAddItem_data]; simp
  refine ⟨?_, ho, by rw [caseAddItem_data]⟩
  cases h2 : (caseAddItem key value (caseAddItem key value s).1).1 with
  | mk d2 o2 =>
    cases h1 : (caseAddItem key value s).1 with
    | mk d1 o1 =>
      rw [h2, h1] at hd ho
      simp only at hd ho
      rw [hd, ho]

/-- C8: deleting a key twice.  After one `DeleteItem` for a key, a second
`DeleteItem` for it takes the branch "key does not exist" and leaves the store
as the first delete left it; and `DeleteItem` for any key absent from `data`
takes that branch, changes neither `data` nor `order`, and returns. -/
theorem deleteItem_twice (s : Store) (key value value2 : Str) :
    switchAction "DeleteItem".toList key value2
        (switchAction "DeleteItem".toList key value s).1 =
      ((switchAction "DeleteItem".toList key value s).1,
        [Event.stdout (Println ["DeleteItem - Key:".toList, key]),
         Event.logged ("DeleteItem - Key does not exist: ".toList ++ key ++ ['\n'])]) ∧
    ∀ t : Store, t.data key = none →
      switchAction "DeleteItem".toList key value t =
        (t, [Event.stdout (Println ["DeleteItem - Key:".toList, key]),
             Event.logged ("DeleteItem - Key does not exist: ".toList ++ key ++ ['\n'])]) := by
  simp only [switchAction_DeleteItem]
  exact ⟨caseDeleteItem_absent key _ (caseDeleteItem_data_self key s),
    fun t ht => caseDeleteItem_absent key t ht⟩

/-- Deleting `k1` from the empty store, where it is absent. -/
theorem deleteItem_twice_witness :
    emptyStore.data "k1".toList = none ∧
    switchAction "DeleteItem".toList "k1".toList [] emptyStore =
      (emptyStore, [Event.stdout "DeleteItem - Key: k1\n".toList,
        Event.logged "DeleteItem - Key does not exist: k1\n".toList]) :=
  ⟨rfl, (deleteItem_twice emptyStore "k1".toList [] []).2 emptyStore rfl⟩

/-- C10: the store is changed by the `AddItem` and `DeleteItem` handlers only.
For every store and every message whose body fails to decode, or decodes to an
action other than `AddItem` and `DeleteItem` (`GetItem`, `GetAllItems`, any
unknown action), `processMessage` leaves `data` and `order` as they were. -/
theorem processMessage_frame (message : Message) (deleteErr : Option Str) (s : Store)
    (h : (∃ err, parseMessageBody message.Body = .error err) ∨
      ∃ action key value, parseMessageBody message.Body = .ok (action, key, value) ∧
        action ≠ "AddItem".toList ∧ action ≠ "DeleteItem".toList) :
    (processMessage message deleteErr s).1 = s := by
  rcases h with ⟨err, h⟩ | ⟨action, key, value, h, h1, h2⟩
  · simp only [processMessage, h]
  · simp only [processMessage, h]
    exact switchAction_other action key value s h1 h2

/-- A `GetAllItems` message leaves the store as it was. -/
theorem processMessage_frame_witness :
    parseMessageBody "Action: GetAllItems, Key: , Value: ".toList =
      .ok ("GetAllItems".toList, [], []) ∧
    (processMessage ⟨"Action: GetAllItems, Key: , Value: ".toList, "r1".toList⟩ none
      emptyStore).1 = emptyStore :=
  ⟨rfl, processMessage_frame ⟨"Action: GetAllItems, Key: , Value: ".toList, "r1".toList⟩ none
    emptyStore (Or.inr ⟨"GetAllItems".toList, [], [], rfl, by decide, by decide⟩)⟩

/-! ## Properties of the decoder -/

theorem isAlnum_ne_separators (c : Char) (h : isAlnum c = true) : c ≠ ',' ∧ c ≠ ':' := by
  simp only [isAlnum, Bool.or_eq_true, Bool.and_eq_true, decide_eq_true_eq] at h
  have ha : 'a'.toNat = 97 := by decide
  have hz : 'z'.toNat = 122 := by decide
  have hA : 'A'.toNat = 65 := by decide
  have hZ : 'Z'.toNat = 90 := by decide
  have h0 : '0'.toNat = 48 := by decide
  have h9 : '9'.toNat = 57 := by decide
  rw [ha, hz, hA, hZ, h0, h9] at h
  constructor
  · rintro rfl
    have : ','.toNat = 44 := by decide
    omega
  · rintro rfl
    have : ':'.toNat = 58 := by decide
    omega

theorem isValidInput_facts (x : Str) (h : isValidInput x = true) :
    ',' ∉ x ∧ ':' ∉ x ∧ TrimSpace x = x := by
  have hall : ∀ c ∈ x, isAlnum c = true := by
    simpa [isValidInput, List.all_eq_true] using h
  refine ⟨fun m => (isAlnum_ne_separators _ (hall _ m)).1 rfl,
    fun m => (isAlnum_ne_separators _ (hall _ m)).2 rfl,
    TrimSpace_of_no_space x (fun c hc => isSpace_of_isAlnum c (hall c hc))⟩

/-- C3: round trip.  For every non-empty alphanumeric action (so for `AddItem`,
`DeleteItem`, `GetItem`, `GetAllItems`) and every alphanumeric key and value,
the empty string included, `parseMessageBody` on the body that `SendMsg` builds,
`Action: <action>, Key: <key>, Value: <value>`, returns `(action, key, value)`
and no error. -/
theorem parseMessageBody_messageBody (action key value : Str) (hne : action ≠ [])
    (ha : isValidInput action = true) (hk : isValidInput key = true)
    (hv : isValidInput value = true) :
    parseMessageBody (messageBody action key value) = .ok (action, key, value) := by
  obtain ⟨ha1, ha2, ha3⟩ := isValidInput_facts action ha
  obtain ⟨hk1, hk2, hk3⟩ := isValidInput_facts key hk
  obtain ⟨hv1, hv2, hv3⟩ := isValidInput_facts value hv
  have hbody : messageBody action key value =
      ("Action: ".toList ++ action) ++ ',' :: ((" Key: ".toList ++ key) ++ ',' ::
        (" Value: ".toList ++ value)) := by
    simp [messageBody]
  have c1 : ',' ∉ "Action: ".toList ++ action := by
    rw [List.mem_append]; rintro (m | m)
    · revert m; decide
    · exact ha1 m
  have c2 : ',' ∉ " Key: ".toList ++ key := by
    rw [List.mem_append]; rintro (m | m)
    · revert m; decide
    · exact hk1 m
  have c3 : ',' ∉ " Value: ".toList ++ value := by
    rw [List.mem_append]; rintro (m | m)
    · revert m; decide
    · exact hv1 m
  have hparts : Split (messageBody action key value) ',' =
      ["Action: ".toList ++ action, " Key: ".toList ++ key, " Value: ".toList ++ value] := by
    rw [hbody, Split_append_sep _ _ _ c1, Split_append_sep _ _ _ c2, Split_of_not_mem _ _ c3]
  have s1 : Split ("Action: ".toList ++ action) ':' = ["Action".toList, ' ' :: action] := by
    have e : "Action: ".toList ++ action = "Action".toList ++ ':' :: (' ' :: action) := rfl
    rw [e, Split_append_sep _ _ _ (by decide), Split_of_not_mem]
    simpa using ha2
  have s2 : Split (" Key: ".toList ++ key) ':' = [" Key".toList, ' ' :: key] := by
    have e : " Key: ".toList ++ key = " Key".toList ++ ':' :: (' ' :: key) := rfl
    rw [e, Split_append_sep _ _ _ (by decide), Split_of_not_mem]
    simpa using hk2
  have s3 : Split (" Value: ".toList ++ value) ':' = [" Value".toList, ' ' :: value] := by
    have e : " Value: ".toList ++ value = " Value".toList ++ ':' :: (' ' :: value) := rfl
    rw [e, Split_append_sep _ _ _ (by decide), Split_of_not_mem]
    simpa using hv2
  have t1 : TrimSpace "Action".toList = "Action".toList := by decide
  have t2 : TrimSpace " Key".toList = "Key".toList := by decide
  have t3 : TrimSpace " Value".toList = "Value".toList := by decide
  have n1 : "Key".toList ≠ "Action".toList := by decide
  have n2 : "Value".toList ≠ "Action".toList := by decide
  have n3 : "Value".toList ≠ "Key".toList := by decide
  unfold parseMessageBody
  rw [hparts]
  simp only [parseParts, s1, s2, s3, t1, t2, t3, if_true,
    if_neg n1, if_neg n2, if_neg n3, TrimSpace_blank_cons, ha3, hk3, hv3, if_neg hne]

/-- The round trip of `AddItem k1 v1`, and of `GetAllItems` with empty key and value. -/
theorem parseMessageBody_messageBody_witness :
    parseMessageBody "Action: AddItem, Key: k1, Value: v1".toList =
      .ok ("AddItem".toList, "k1".toList, "v1".toList) ∧
    parseMessageBody (messageBody "GetAllItems".toList [] []) =
      .ok ("GetAllItems".toList, [], []) :=
  ⟨parseMessageBody_messageBody "AddItem".toList "k1".toList "v1".toList
      (by decide) (by decide) (by decide) (by decide),
   parseMessageBody_messageBody "GetAllItems".toList [] []
      (by decide) (by decide) (by decide) (by decide)⟩

/-- C5, as the claim states it, fails: the body `Action: , Key: abc` has two
parts that both split on `:` in two pieces and it has an `Action` field, yet
`parseMessageBody` returns the missing-values error. -/
theorem missing_error_with_action_field :
    ¬ ∀ body : Str, (∀ part ∈ Split body ',', (Split part ':').length = 2) →
      (parseMessageBody body = .error "missing required values" ↔
        fieldTexts "Action".toList (Split body ',') = []) := by
  intro h
  have h1 := h "Action: , Key: abc".toList (by decide)
  have h2 : fieldTexts "Action".toList (Split "Action: , Key: abc".toList ',') = [] :=
    h1.1 rfl
  revert h2
  decide

/-- C5, amended: `parseMessageBody` returns the malformed-field error exactly
when some comma-separated part of the body does not split on `:` into two
pieces.  When every part splits in two, it returns the missing-values error
exactly when the action it extracted is empty, that is when the body has no
`Action` field or its last `Action` field has an empty text after trimming;
otherwise it succeeds, with the last text of each of the three fields. -/
theorem parseMessageBody_failures (body : Str) :
    (parseMessageBody body = .error "invalid message body format" ↔
      ∃ part ∈ Split body ',', (Split part ':').length ≠ 2) ∧
    ((∀ part ∈ Split body ',', (Split part ':').length = 2) →
      (parseMessageBody body = .error "missing required values" ↔
        lastField "Action".toList (Split body ',') [] = []) ∧
      (lastField "Action".toList (Split body ',') [] ≠ [] →
        parseMessageBody body =
          .ok (lastField "Action".toList (Split body ',') [],
            lastField "Key".toList (Split body ',') [],
            lastField "Value".toList (Split body ',') []))) := by
  have hne : "missing required values" ≠ "invalid message body format" := by decide
  rw [parseMessageBody_eq body]
  constructor
  · constructor
    · intro h
      by_contra hno
      rw [if_neg hno] at h
      split_ifs at h
      exact hne (Except.error.inj h)
    · intro h
      rw [if_pos h]
  · intro hall
    have hno : ¬ ∃ part ∈ Split body ',', (Split part ':').length ≠ 2 := by
      rintro ⟨part, hp, hlen⟩
      exact hlen (hall part hp)
    rw [if_neg hno]
    constructor
    · constructor
      · intro h
        by_contra he
        rw [if_neg he] at h
        cases h
      · intro h
        rw [if_pos h]
    · intro h
      rw [if_neg h]

/-- The body `Key: abc` has one part, which splits in two, and no `Action` field:
the missing-values error. -/
theorem parseMessageBody_failures_witness :
    (∀ part ∈ Split "Key: abc".toList ',', (Split part ':').length = 2) ∧
    parseMessageBody "Key: abc".toList = .error "missing required values" :=
  ⟨by decide,
   ((parseMessageBody_failures "Key: abc".toList).2 (by decide)).1.2 (by decide)⟩

theorem Split_segment (p : Str × Str) (h1 : ':' ∉ p.1) (h2 : ':' ∉ p.2) :
    Split (p.1 ++ ": ".toList ++ p.2) ':' = [p.1, ' ' :: p.2] := by
  have e : p.1 ++ ": ".toList ++ p.2 = p.1 ++ ':' :: (' ' :: p.2) := by simp
  rw [e, Split_append_sep _ _ _ h1, Split_of_not_mem]
  simpa using h2

theorem fieldTexts_segments (name : Str) (segs : List (Str × Str))
    (h : ∀ p ∈ segs, ':' ∉ p.1 ∧ ':' ∉ p.2) :
    fieldTexts name (segs.map (fun p => p.1 ++ ": ".toList ++ p.2)) =
      segs.filterMap (fun p => if TrimSpace p.1 = name then some (TrimSpace p.2) else none) := by
  induction segs with
  | nil => rfl
  | cons p ps ih =>
    have hp := h p (by simp)
    have ih2 := ih (fun q hq => h q (List.mem_cons_of_mem _ hq))
    unfold fieldTexts at ih2 ⊢
    rw [List.map_cons, List.filterMap_cons, List.filterMap_cons, ih2,
      Split_segment p hp.1 hp.2]
    simp only [TrimSpace_blank_cons]

theorem lastText_eq_segmentText (name : Str) (segs : List (Str × Str))
    (h : (segs.filter (fun p => decide (TrimSpace p.1 = name))).length ≤ 1) :
    ((segs.filterMap
        (fun p => if TrimSpace p.1 = name then some (TrimSpace p.2) else none)).getLast?).getD []
      = segmentText name segs := by
  induction segs with
  | nil => rfl
  | cons p ps ih =>
    by_cases e : TrimSpace p.1 = name
    · have hf : List.filter (fun q => decide (TrimSpace q.1 = name)) (p :: ps) =
          p :: List.filter (fun q => decide (TrimSpace q.1 = name)) ps :=
        List.filter_cons_of_pos (by simp [e])
      rw [hf, List.length_cons] at h
      have hnil : List.filter (fun q => decide (TrimSpace q.1 = name)) ps = [] :=
        List.length_eq_zero.mp (by omega)
      have hnone : ps.filterMap
          (fun q => if TrimSpace q.1 = name then some (TrimSpace q.2) else none) = [] := by
        rw [List.filterMap_eq_nil_iff]
        intro q hq
        have hq2 : ¬ (decide (TrimSpace q.1 = name) = true) := by
          intro hd
          have : q ∈ List.filter (fun q => decide (TrimSpace q.1 = name)) ps :=
            List.mem_filter.mpr ⟨hq, hd⟩
          rw [hnil] at this
          exact List.not_mem_nil _ this
        have hq3 : TrimSpace q.1 ≠ name := by simpa using hq2
        rw [if_neg hq3]
      rw [List.filterMap_cons, if_pos e, hnone]
      simp [segmentText, List.find?, e]
    · have hf : List.filter (fun q => decide (TrimSpace q.1 = name)) (p :: ps) =
          List.filter (fun q => decide (TrimSpace q.1 = name)) ps :=
        List.filter_cons_of_neg (by simp [e])
      rw [hf] at h
      rw [List.filterMap_cons, if_neg e, ih h]
      simp [segmentText, List.find?, e]

/-- C6: fields in any order, `Value` omitted, unknown fields.  Take any list of
segments `<name>: <text>`, names and texts free of `,` and `:`, where a
segment's field name is its name with the surrounding white space trimmed.  If
each of the field names `Action`, `Key`, `Value` occurs at most once and the
`Action` text is not empty after trimming, `parseMessageBody` on the segments
joined by `,` succeeds and returns the trimmed `Action` text, the trimmed `Key`
text (empty when there is no `Key` segment) and the trimmed `Value` text (empty
when there is no `Value` segment), whatever the order of the segments and
whatever segments with other names are present. -/
theorem parseMessageBody_joinSegments (segs : List (Str × Str))
    (hfree : ∀ p ∈ segs, ',' ∉ p.1 ∧ ':' ∉ p.1 ∧ ',' ∉ p.2 ∧ ':' ∉ p.2)
    (honce : ∀ name ∈ ["Action".toList, "Key".toList, "Value".toList],
      (segs.filter (fun p => decide (TrimSpace p.1 = name))).length ≤ 1)
    (hact : segmentText "Action".toList segs ≠ []) :
    parseMessageBody (joinSegments segs) =
      .ok (segmentText "Action".toList segs, segmentText "Key".toList segs,
        segmentText "Value".toList segs) := by
  have hcolon : ∀ p ∈ segs, ':' ∉ p.1 ∧ ':' ∉ p.2 :=
    fun p hp => ⟨(hfree p hp).2.1, (hfree p hp).2.2.2⟩
  have hparts : Split (joinSegments segs) ',' =
      segs.map (fun p => p.1 ++ ": ".toList ++ p.2) := by
    cases segs with
    | nil => exact absurd rfl hact
    | cons p ps =>
      unfold joinSegments
      rw [List.map_cons]
      apply Split_intercalate
      intro y hy
      have hy2 : y ∈ (p :: ps).map (fun p => p.1 ++ ": ".toList ++ p.2) := hy
      obtain ⟨q, hq, rfl⟩ := List.mem_map.mp hy2
      have hc : ',' ∉ ": ".toList := by decide
      simp only [List.mem_append, not_or]
      exact ⟨⟨(hfree q hq).1, hc⟩, (hfree q hq).2.2.1⟩
  have hgood : ¬ ∃ part ∈ Split (joinSegments segs) ',', (Split part ':').length ≠ 2 := by
    rw [hparts]
    rintro ⟨part, hp, hlen⟩
    obtain ⟨q, hq, rfl⟩ := List.mem_map.mp hp
    rw [Split_segment q (hcolon q hq).1 (hcolon q hq).2] at hlen
    exact hlen rfl
  have hlast : ∀ name ∈ ["Action".toList, "Key".toList, "Value".toList],
      lastField name (Split (joinSegments segs) ',') [] = segmentText name segs := by
    intro name hn
    unfold lastField
    rw [hparts, fieldTexts_segments name segs hcolon]
    exact lastText_eq_segmentText name segs (honce name hn)
  rw [parseMessageBody_eq, if_neg hgood, hlast _ (by simp), hlast _ (by simp),
    hlast _ (by simp), if_neg hact]

/-- The fields in another order, with an unknown field and no `Value` field. -/
theorem parseMessageBody_joinSegments_witness :
    joinSegments [(" Key".toList, "k1 ".toList), ("Trace".toList, "x9".toList),
      (" Action".toList, "GetItem".toList)] = " Key: k1 ,Trace: x9, Action: GetItem".toList ∧
    parseMessageBody " Key: k1 ,Trace: x9, Action: GetItem".toList =
      .ok ("GetItem".toList, "k1".toList, []) :=
  ⟨by decide,
   parseMessageBody_joinSegments [(" Key".toList, "k1 ".toList), ("Trace".toList, "x9".toList),
      (" Action".toList, "GetItem".toList)] (by decide) (by decide) (by decide)⟩

/-! ## Properties of the receive loop -/

/-- C9, as the claim states it, fails: when the first receive call fails and a
second call would return a batch with one message, the loop has made one call,
has printed the error, has returned, and has forwarded nothing. -/
theorem receiveLoop_stops_at_failure :
    (receiveLoop [ReceiveOutcome.failure "timeout".toList,
      ReceiveOutcome.batch [⟨"Action: GetAllItems, Key: , Value: ".toList, "r1".toList⟩]]).forwarded
      ≠ allBatches [ReceiveOutcome.failure "timeout".toList,
      ReceiveOutcome.batch [⟨"Action: GetAllItems, Key: , Value: ".toList, "r1".toList⟩]] ∧
    (receiveLoop [ReceiveOutcome.failure "timeout".toList,
      ReceiveOutcome.batch [⟨"Action: GetAllItems, Key: , Value: ".toList, "r1".toList⟩]]).calls
      = 1 ∧
    (receiveLoop [ReceiveOutcome.failure "timeout".toList,
      ReceiveOutcome.batch [⟨"Action: GetAllItems, Key: , Value: ".toList, "r1".toList⟩]]).returned
      = true ∧
    (receiveLoop [ReceiveOutcome.failure "timeout".toList,
      ReceiveOutcome.batch [⟨"Action: GetAllItems, Key: , Value: ".toList, "r1".toList⟩]]).output
      = [Event.stdout "Failed to receive messages from SQS: timeout\n".toList,
         Event.stdout "Got an error receiving messages:\n".toList,
         Event.stdout "timeout\n".toList] := by
  decide

/-- C9, amended: a failed batch-receive call ends the receive loop.  For every
sequence of answers of the queue, the loop forwards the messages of the batches
that come before the first failed call, in order; it makes no call after the
first failed one; it has returned exactly when some call has failed; and what
it prints is, for the first failed call only, the line of `GetMessages`, the
line `Got an error receiving messages:` and the error. -/
theorem receiveLoop_until_failure (outcomes : List ReceiveOutcome) :
    (receiveLoop outcomes).forwarded = batchesBeforeFailure outcomes ∧
    (receiveLoop outcomes).calls = answersUntilFailure outcomes ∧
    ((receiveLoop outcomes).returned = true ↔
      ∃ err, ReceiveOutcome.failure err ∈ outcomes) ∧
    (receiveLoop outcomes).output = failureOutput outcomes := by
  induction outcomes with
  | nil => simp [receiveLoop, batchesBeforeFailure, answersUntilFailure, failureOutput]
  | cons o rest ih =>
    cases o with
    | batch messages =>
      simp [receiveLoop, GetMessages, batchesBeforeFailure, answersUntilFailure,
        failureOutput, ih]
    | failure err =>
      simp [receiveLoop, GetMessages, batchesBeforeFailure, answersUntilFailure,
        failureOutput, Println, List.intercalate, List.intersperse]

end Bloxroute

